import Mathlib

/-!
# Verification of `script/sort.py` (ad-filter repository)

Shallow embedding of the Adblock-rule processing pipeline in
`script/sort.py`: `filter_rules`, `remove_duplicates`, `extract_domain`,
`sort_rules`, `add_header` and `main`.  Python strings are modelled as
Lean `String` (or `List Char` for the derived domain values); Python's
`list.sort`/`sorted` (a stable sort) is modelled by `List.mergeSort`,
which is stable and sorted, hence extensionally equal to it.
-/

namespace AdFilter

/-- The set `COUNTRY_SUFFIXES` from `script/sort.py`, as a list in the
order it is written in the source.  Python iterates a `set` in an
unspecified order, so results may only depend on this list up to
permutation. -/
def COUNTRY_SUFFIXES : List String :=
  ["jp", "kr", "pl", "uk", "de", "fr", "it", "ru", "es", "ca", "au", "ch", "se", "br", "za", "in", "id", "vn", "th", "my",
   "ar", "mx", "ph", "cl", "nz", "pt", "be", "no", "fi", "gr", "tr", "sa", "ae", "hk", "sg", "tw", "dk", "ie", "cz", "hu",
   "ro", "bg", "sk", "lt", "lv", "ee", "is", "mt", "cy", "rs", "si", "hr", "ba", "mk", "me", "al", "ge", "am", "az", "by",
   "kg", "kz", "md", "tj", "tm", "uz", "ua", "pk", "np", "lk", "bd", "kh", "la", "mm", "bt", "bn", "mn", "af", "ir", "iq",
   "jo", "lb", "om", "qa", "kw", "bh", "ye", "sy", "ps", "dz", "ma", "tn", "ly", "eg", "sd", "et", "ng", "gh", "ci", "sn",
   "ke", "tz", "ug", "zm", "zw", "mw", "bw", "na", "sz", "ls", "mg", "mu", "sc", "cv", "gw", "gq", "st", "ga", "cg", "cd",
   "ao", "cm", "ne", "bf", "ml", "td", "mr", "sl", "lr", "gm", "gn", "bj", "tg", "bi", "rw", "so", "dj", "er", "ss"]

/-- `leadsWith pat l` is true when `pat` is an initial segment of `l`
(Python `l.startswith(pat)` on character lists). -/
def leadsWith : List Char → List Char → Bool
  | [], _ => true
  | _ :: _, [] => false
  | p :: ps, c :: cs => p == c && leadsWith ps cs

/-- `trailsWith pat l` is true when `pat` is a final segment of `l`
(Python `l.endswith(pat)`). -/
def trailsWith (pat l : List Char) : Bool :=
  leadsWith pat.reverse l.reverse

/-- One step of `filter_rules`: the regex
`re.compile(rf"\.({'|'.join(COUNTRY_SUFFIXES)})\^$").search(line)` finds a
match exactly when `line` ends with `"." ++ cc ++ "^"` for some code `cc`
of the alternation (all alternatives are plain two-letter codes, so the
regex has no other behaviour). -/
def endsWithCountry (suffixes : List String) (line : String) : Bool :=
  suffixes.any fun cc => trailsWith ('.' :: (cc.data ++ ['^'])) line.data

/-- `line.startswith('!') or line.startswith('[')` from `filter_rules`. -/
def isComment (line : String) : Bool :=
  match line.data with
  | [] => false
  | c :: _ => c == '!' || c == '['

/-- `re.match(r"^\|\|[^\^]+?\^$", line)` succeeds exactly when the line
is `"||" ++ body ++ "^"` with `body` nonempty and caret-free: after the
two pipes the rest must end in `'^'` and everything before that final
caret must be one or more non-caret characters. -/
def isAdblockRule (line : String) : Bool :=
  match line.data with
  | '|' :: '|' :: rest =>
      rest.getLast? == some '^' && !rest.dropLast.isEmpty &&
        rest.dropLast.all fun c => c != '^'
  | _ => false

/-- `filter_rules` from `script/sort.py`, parameterised by the order in
which Python happens to iterate the `COUNTRY_SUFFIXES` set when building
the alternation regex.  A line is kept when it is not a comment or
section header, does not end in a blocklisted country suffix, and matches
the Adblock rule format. -/
def filterRulesWith (suffixes : List String) (lines : List String) : List String :=
  lines.filter fun line =>
    !isComment line && !endsWithCountry suffixes line && isAdblockRule line

/-- `filter_rules` from `script/sort.py` with the suffix set in source
order. -/
def filter_rules (lines : List String) : List String :=
  filterRulesWith COUNTRY_SUFFIXES lines

/-- The loop of `remove_duplicates`, carrying the `seen` set (modelled as
the list of strings added so far; Python set membership is exact string
equality). -/
def removeDupAux (seen : List String) : List String → List String
  | [] => []
  | l :: ls =>
      if l ∈ seen then removeDupAux seen ls
      else l :: removeDupAux (l :: seen) ls

/-- `remove_duplicates` from `script/sort.py`. -/
def remove_duplicates (lines : List String) : List String :=
  removeDupAux [] lines

/-- Fuel-indexed Python `str.split(sep)` on character lists (`sep`
nonempty in all uses): scan left to right, cut at each non-overlapping
occurrence of `sep`.  The fuel is always at least the length of the
input, so the fuel-exhausted branch is never taken. -/
def splitAux (sep : List Char) : Nat → List Char → List (List Char)
  | _, [] => [[]]
  | 0, l => [l]
  | fuel + 1, c :: cs =>
      if !sep.isEmpty && leadsWith sep (c :: cs) then
        [] :: splitAux sep fuel (List.drop sep.length (c :: cs))
      else
        match splitAux sep fuel cs with
        | [] => [[c]]
        | p :: ps => (c :: p) :: ps

/-- Python `s.split(sep)` for nonempty `sep`, on character lists. -/
def pySplitCh (sep l : List Char) : List (List Char) :=
  splitAux sep l.length l

/-- `extract_domain` from `script/sort.py`:
`rule.split("||")[-1].split("^")[0]`. -/
def extract_domain (rule : String) : List Char :=
  (pySplitCh ['^'] ((pySplitCh ['|', '|'] rule.data).getLastD [])).headD []

/-- `extract_domain` with every Python indexing operation (`[-1]`, `[0]`)
modelled as a fallible access, to show none of them can fail. -/
def extractDomainOpt (rule : String) : Option (List Char) :=
  ((pySplitCh ['|', '|'] rule.data).getLast?).bind fun d =>
    (pySplitCh ['^'] d).head?

/-- `sorting_key` from `sort_rules`: the pair (second-to-last
dot-separated label when the domain has more than one label, else the
whole domain; the full domain). -/
def sorting_key (rule : String) : List Char × List Char :=
  let domain := extract_domain rule
  let parts := pySplitCh ['.'] domain
  let second_level_domain :=
    if parts.length > 1 then parts.getD (parts.length - 2) [] else parts.headD []
  (second_level_domain, domain)

/-- `sorting_key` with every indexing operation (`[-2]`, `[0]`) modelled
as a fallible access, to show none of them can fail. -/
def sortingKeyOpt (rule : String) : Option (List Char × List Char) :=
  (extractDomainOpt rule).bind fun domain =>
    let parts := pySplitCh ['.'] domain
    (if parts.length > 1 then parts[parts.length - 2]? else parts.head?).map
      fun second_level_domain => (second_level_domain, domain)

/-- Strict lexicographic comparison of character lists by code point:
exactly Python's `<` on strings. -/
def lexLt : List Char → List Char → Bool
  | [], [] => false
  | [], _ :: _ => true
  | _ :: _, [] => false
  | a :: as, b :: bs =>
      if a < b then true else if b < a then false else lexLt as bs

/-- Python's `<=` on pairs of strings (tuple comparison as used by
`sorted(..., key=...)`): lexicographic on the pair. -/
def keyLE (a b : List Char × List Char) : Bool :=
  if lexLt a.1 b.1 then true
  else if lexLt b.1 a.1 then false
  else !lexLt b.2 a.2

/-- The total preorder on rules induced by `sorting_key`; Python's
`sorted(lines, key=sorting_key)` is the (unique) stable sort with
respect to it. -/
def ruleLE (a b : String) : Bool :=
  keyLE (sorting_key a) (sorting_key b)

/-- `sort_rules` from `script/sort.py`: `sorted(lines, key=sorting_key)`,
modelled as a stable merge sort (stable sorting is extensionally
unique, so this is the same function as CPython's stable `sorted`). -/
def sort_rules (lines : List String) : List String :=
  lines.mergeSort ruleLE

/-- The rule transformation of `main`, without I/O and header: filter,
deduplicate, sort. -/
def pipeline (lines : List String) : List String :=
  sort_rules (remove_duplicates (filter_rules lines))

/-- A wall-clock time as used by `datetime.datetime.now()`, reduced to
the six fields the two `strftime` calls read. -/
structure DateTime where
  year : Nat
  month : Nat
  day : Nat
  hour : Nat
  minute : Nat
  second : Nat

/-- Two-digit zero-padded decimal field, as produced by `strftime`
(`%m`, `%d`, `%H`, `%M`, `%S`) for in-range values. -/
def pad2 (n : Nat) : String :=
  ⟨[Nat.digitChar (n / 10 % 10), Nat.digitChar (n % 10)]⟩

/-- Four-digit zero-padded decimal field, as produced by `strftime`
(`%Y`) for years up to 9999. -/
def pad4 (n : Nat) : String :=
  ⟨[Nat.digitChar (n / 1000 % 10), Nat.digitChar (n / 100 % 10),
    Nat.digitChar (n / 10 % 10), Nat.digitChar (n % 10)]⟩

/-- `strftime('%Y%m%d%H%M%S')`. -/
def fmtCompact (t : DateTime) : String :=
  pad4 t.year ++ pad2 t.month ++ pad2 t.day ++ pad2 t.hour ++ pad2 t.minute ++ pad2 t.second

/-- `strftime('%Y-%m-%d %H:%M:%S')`. -/
def fmtHuman (t : DateTime) : String :=
  pad4 t.year ++ "-" ++ pad2 t.month ++ "-" ++ pad2 t.day ++ " " ++
    pad2 t.hour ++ ":" ++ pad2 t.minute ++ ":" ++ pad2 t.second

/-- `add_header` from `script/sort.py`.  The two `datetime.now()` calls
are independent, so the header takes both observed times as
parameters (`tNow` is read first in the source, for Last Modified;
`tVersion` by the second call, for Version). -/
def add_header (file_name : String) (rule_count : Nat) (tVersion tNow : DateTime) :
    List String :=
  [ "! Title: Optimized Adblock Rules",
    "! Description: This is an optimized adblock filter list.",
    "! Source file: " ++ file_name,
    "! Version: " ++ fmtCompact tVersion,
    "! Last Modified: " ++ fmtHuman tNow,
    "! Total Rules: " ++ Nat.repr rule_count,
    "!" ]

/-- Observable outcome of one run of `main`: either the usage message is
printed and the process exits with the given code, touching no file, or
the run succeeds, printing a summary and overwriting the file with the
given lines. -/
inductive MainResult where
  | usage (printed : String) (exitCode : Nat)
  | ok (printed : String) (written : List String)
deriving DecidableEq

/-- The usage string printed by `main` on a wrong argument count. -/
def usageMsg : String := "用法: python sort.py <文件路径>"

/-- `main` from `script/sort.py`.  `argv` is the full `sys.argv`
(program name included); `fileLines` are the stripped nonempty lines
`read_file` would return for the target file; the two `DateTime`
parameters are the times observed by `add_header`. -/
def runMain (argv : List String) (fileLines : List String) (tVersion tNow : DateTime) :
    MainResult :=
  match argv with
  | [_, file_name] =>
      let sorted_rules := pipeline fileLines
      let header := add_header file_name sorted_rules.length tVersion tNow
      .ok ("文件 " ++ file_name ++ " 已成功优化，共处理 " ++
            Nat.repr sorted_rules.length ++ " 条规则。")
        (header ++ sorted_rules)
  | _ => .usage usageMsg 1

/-- The tail of `l` after the last (maximal-index) occurrence of `pat`
as a contiguous sublist, or `none` when `pat` never occurs.  This is the
reading "substring after the last occurrence" taken literally by claim
C3; it differs from Python's non-overlapping `split` when occurrences
overlap. -/
def afterLastOcc (pat : List Char) : List Char → Option (List Char)
  | [] => none
  | c :: cs =>
      match afterLastOcc pat cs with
      | some r => some r
      | none =>
          if leadsWith pat (c :: cs) then some (List.drop pat.length (c :: cs))
          else none

/-- The domain as worded by claim C3: the substring after the last
occurrence of `"||"` and before the following `'^'`. -/
def extractDomainSpec (rule : String) : Option (List Char) :=
  (afterLastOcc ['|', '|'] rule.data).map fun r => r.takeWhile fun c => c != '^'

/-- The sort key as worded by claim C3, built on `extractDomainSpec`. -/
def sortingKeySpec (rule : String) : Option (List Char × List Char) :=
  (extractDomainSpec rule).map fun domain =>
    let parts := pySplitCh ['.'] domain
    ((if parts.length > 1 then parts.getD (parts.length - 2) [] else parts.headD []),
      domain)

/-- Deduplication as worded by claim C5: keep the first occurrence of
each string in place and drop every later occurrence entirely. -/
def dedupSpec : List String → List String
  | [] => []
  | x :: xs => x :: dedupSpec (xs.filter fun y => y != x)
termination_by l => l.length
decreasing_by
  simp only [List.length_cons]
  exact Nat.lt_succ_of_le (List.length_filter_le _ _)

end AdFilter

namespace AdFilter

/-! ## Order lemmas for the sorting comparator -/

theorem char_eq_of_not_lt {x y : Char} (h1 : ¬x < y) (h2 : ¬y < x) : x = y :=
  le_antisymm (not_lt.mp h2) (not_lt.mp h1)

theorem lexLt_irrefl : ∀ l : List Char, lexLt l l = false := by
  intro l
  induction l with
  | nil => rfl
  | cons c cs ih => simp [lexLt, lt_irrefl, ih]

theorem lexLt_asymm : ∀ a b : List Char, lexLt a b = true → lexLt b a = false := by
  intro a
  induction a with
  | nil =>
      intro b h
      cases b with
      | nil => simp [lexLt] at h
      | cons y ys => rfl
  | cons x xs ih =>
      intro b h
      cases b with
      | nil => simp [lexLt] at h
      | cons y ys =>
          simp only [lexLt] at h ⊢
          rcases lt_trichotomy x y with hxy | hxy | hxy
          · rw [if_neg (asymm hxy), if_pos hxy]
          · subst hxy
            simp only [lt_irrefl, if_false] at h ⊢
            exact ih ys h
          · rw [if_neg (asymm hxy), if_pos hxy] at h
            exact absurd h (by simp)

theorem lexLt_trans :
    ∀ a b c : List Char, lexLt a b = true → lexLt b c = true → lexLt a c = true := by
  intro a
  induction a with
  | nil =>
      intro b c hab hbc
      cases b with
      | nil => simp [lexLt] at hab
      | cons y ys =>
          cases c with
          | nil => simp [lexLt] at hbc
          | cons z zs => rfl
  | cons x xs ih =>
      intro b c hab hbc
      cases b with
      | nil => simp [lexLt] at hab
      | cons y ys =>
          cases c with
          | nil => simp [lexLt] at hbc
          | cons z zs =>
              simp only [lexLt] at hab hbc ⊢
              by_cases h1 : x < y
              · by_cases h2 : y < z
                · rw [if_pos (lt_trans h1 h2)]
                · by_cases h3 : z < y
                  · simp [if_neg h2, if_pos h3] at hbc
                  · cases char_eq_of_not_lt h2 h3
                    rw [if_pos h1]
              · by_cases h1' : y < x
                · simp [if_neg h1, if_pos h1'] at hab
                · cases char_eq_of_not_lt h1 h1'
                  rw [if_neg h1, if_neg h1'] at hab
                  by_cases h2 : x < z
                  · rw [if_pos h2]
                  · by_cases h3 : z < x
                    · simp [if_neg h2, if_pos h3] at hbc
                    · cases char_eq_of_not_lt h2 h3
                      rw [if_neg h2, if_neg h3] at hbc ⊢
                      exact ih ys zs hab hbc

theorem lexLt_conn :
    ∀ a b : List Char, lexLt a b = false → lexLt b a = false → a = b := by
  intro a
  induction a with
  | nil =>
      intro b hab _
      cases b with
      | nil => rfl
      | cons y ys => simp [lexLt] at hab
  | cons x xs ih =>
      intro b hab hba
      cases b with
      | nil => simp [lexLt] at hba
      | cons y ys =>
          simp only [lexLt] at hab hba
          by_cases h1 : x < y
          · simp [if_pos h1] at hab
          · by_cases h2 : y < x
            · simp [if_neg h1, if_pos h2, if_neg (asymm h2)] at hab hba
            · cases char_eq_of_not_lt h1 h2
              rw [if_neg h1, if_neg h2] at hab hba
              rw [ih ys hab hba]

theorem keyLE_refl (k : List Char × List Char) : keyLE k k = true := by
  simp [keyLE, lexLt_irrefl]

theorem keyLE_total : ∀ a b : List Char × List Char, (keyLE a b || keyLE b a) = true := by
  rintro ⟨a1, a2⟩ ⟨b1, b2⟩
  simp only [keyLE]
  by_cases h1 : lexLt a1 b1 = true
  · simp [h1]
  · by_cases h2 : lexLt b1 a1 = true
    · simp [h2]
    · simp only [Bool.not_eq_true] at h1 h2
      cases lexLt_conn _ _ h1 h2
      simp only [lexLt_irrefl, Bool.false_eq_true, if_false, Bool.or_eq_true,
        Bool.not_eq_true']
      by_cases h3 : lexLt b2 a2 = true
      · exact Or.inr (lexLt_asymm _ _ h3)
      · exact Or.inl (by simpa using h3)

theorem keyLE_trans : ∀ a b c : List Char × List Char,
    keyLE a b = true → keyLE b c = true → keyLE a c = true := by
  rintro ⟨a1, a2⟩ ⟨b1, b2⟩ ⟨c1, c2⟩ hab hbc
  simp only [keyLE] at hab hbc ⊢
  by_cases h1 : lexLt a1 b1 = true
  · by_cases h2 : lexLt b1 c1 = true
    · rw [if_pos (lexLt_trans _ _ _ h1 h2)]
    · by_cases h3 : lexLt c1 b1 = true
      · simp [h2, h3] at hbc
      · simp only [Bool.not_eq_true] at h2 h3
        cases lexLt_conn _ _ h2 h3
        rw [if_pos h1]
  · by_cases h1' : lexLt b1 a1 = true
    · simp [h1, h1'] at hab
    · simp only [Bool.not_eq_true] at h1 h1'
      cases lexLt_conn _ _ h1 h1'
      rw [if_neg (by simp [lexLt_irrefl]), if_neg (by simp [lexLt_irrefl])] at hab
      by_cases h2 : lexLt a1 c1 = true
      · rw [if_pos h2]
      · by_cases h3 : lexLt c1 a1 = true
        · simp [h2, h3] at hbc
        · simp only [Bool.not_eq_true] at h2 h3
          cases lexLt_conn _ _ h2 h3
          rw [if_neg (by simp [lexLt_irrefl]), if_neg (by simp [lexLt_irrefl])] at hbc ⊢
          simp only [Bool.not_eq_true'] at hab hbc ⊢
          by_cases h5 : lexLt b2 c2 = true
          · by_cases h4 : lexLt c2 a2 = true
            · exact absurd (lexLt_trans _ _ _ h5 h4) (by simp [hab])
            · simpa using h4
          · simp only [Bool.not_eq_true] at h5
            cases lexLt_conn _ _ hbc h5
            exact hab

theorem ruleLE_trans (a b c : String)
    (hab : ruleLE a b = true) (hbc : ruleLE b c = true) : ruleLE a c = true :=
  keyLE_trans _ _ _ hab hbc

theorem ruleLE_total (a b : String) : (ruleLE a b || ruleLE b a) = true :=
  keyLE_total _ _

end AdFilter

namespace AdFilter

theorem mem_filterRulesWith {S lines : List String} {r : String}
    (h : r ∈ filterRulesWith S lines) :
    r ∈ lines ∧ isComment r = false ∧ endsWithCountry S r = false ∧
      isAdblockRule r = true := by
  rw [filterRulesWith, List.mem_filter] at h
  obtain ⟨h1, h2⟩ := h
  simp only [Bool.and_eq_true, Bool.not_eq_true'] at h2
  exact ⟨h1, h2.1.1, h2.1.2, h2.2⟩

theorem leadsWith_iff : ∀ pat l : List Char, leadsWith pat l = true ↔ ∃ t, l = pat ++ t := by
  intro pat
  induction pat with
  | nil => intro l; simp [leadsWith]
  | cons p ps ih =>
      intro l
      cases l with
      | nil => simp [leadsWith]
      | cons c cs =>
          simp only [leadsWith, Bool.and_eq_true, beq_iff_eq, ih, List.cons_append,
            List.cons.injEq]
          constructor
          · rintro ⟨rfl, t, rfl⟩; exact ⟨t, rfl, rfl⟩
          · rintro ⟨t, rfl, rfl⟩; exact ⟨rfl, t, rfl⟩

theorem trailsWith_iff (pat l : List Char) : trailsWith pat l = true ↔ ∃ p, l = p ++ pat := by
  rw [trailsWith, leadsWith_iff]
  constructor
  · rintro ⟨t, ht⟩
    refine ⟨t.reverse, ?_⟩
    have h2 := congrArg List.reverse ht
    simpa using h2
  · rintro ⟨p, rfl⟩
    exact ⟨p.reverse, by simp⟩

theorem isAdblockRule_iff (s : String) :
    isAdblockRule s = true ↔
      ∃ body : List Char, s.data = '|' :: '|' :: (body ++ ['^']) ∧ body ≠ [] ∧
        ∀ c ∈ body, c ≠ '^' := by
  constructor
  · intro h
    unfold isAdblockRule at h
    split at h
    · rename_i rest heq
      simp only [Bool.and_eq_true, beq_iff_eq, Bool.not_eq_true', List.all_eq_true,
        bne_iff_ne] at h
      obtain ⟨⟨hlast, hne⟩, hall⟩ := h
      have hrest : rest ≠ [] := by rintro rfl; simp at hlast
      refine ⟨rest.dropLast, ?_, ?_, hall⟩
      · rw [heq]
        have hg : rest.getLast hrest = '^' := by
          rw [List.getLast?_eq_getLast rest hrest] at hlast
          exact Option.some.inj hlast
        conv_lhs => rw [← List.dropLast_append_getLast hrest]
        rw [hg]
      · intro hb
        rw [hb] at hne
        simp at hne
    · simp at h
  · rintro ⟨body, hdata, hne, hall⟩
    unfold isAdblockRule
    rw [hdata]
    show ((body ++ ['^']).getLast? == some '^' && !(body ++ ['^']).dropLast.isEmpty &&
      (body ++ ['^']).dropLast.all fun c => c != '^') = true
    simp only [List.getLast?_concat, List.dropLast_concat, beq_self_eq_true, Bool.true_and,
      Bool.and_eq_true, List.all_eq_true, bne_iff_ne]
    constructor
    · cases body with
      | nil => exact absurd rfl hne
      | cons x xs => simp
    · exact hall

theorem splitAux_ne_nil (sep : List Char) : ∀ (fuel : Nat) (l : List Char),
    splitAux sep fuel l ≠ [] := by
  intro fuel
  induction fuel with
  | zero => intro l; cases l <;> simp [splitAux]
  | succ n ih =>
      intro l
      cases l with
      | nil => simp [splitAux]
      | cons c cs =>
          unfold splitAux
          split
          · simp
          · cases h : splitAux sep n cs with
            | nil => simp
            | cons p ps => simp

theorem pySplitCh_ne_nil (sep l : List Char) : pySplitCh sep l ≠ [] :=
  splitAux_ne_nil sep l.length l

theorem mergeSort_pair {α : Type} (le : α → α → Bool) (a b : α) :
    List.mergeSort [a, b] le = if le a b then [a, b] else [b, a] := by
  rw [List.mergeSort]
  simp [List.splitInTwo, List.splitAt_eq, List.merge]

end AdFilter

namespace AdFilter

theorem mem_removeDupAux : ∀ (l seen : List String) (x : String),
    x ∈ removeDupAux seen l ↔ x ∈ l ∧ x ∉ seen := by
  intro l
  induction l with
  | nil => intro seen x; simp [removeDupAux]
  | cons a as ih =>
      intro seen x
      rw [removeDupAux]
      split
      · rename_i ha
        rw [ih]
        simp only [List.mem_cons]
        constructor
        · rintro ⟨hx, hns⟩
          exact ⟨Or.inr hx, hns⟩
        · rintro ⟨hmem, hns⟩
          rcases hmem with rfl | hx
          · exact absurd ha hns
          · exact ⟨hx, hns⟩
      · rename_i ha
        simp only [List.mem_cons, ih]
        constructor
        · rintro (rfl | ⟨hx, hns⟩)
          · exact ⟨Or.inl rfl, ha⟩
          · rw [not_or] at hns
            exact ⟨Or.inr hx, hns.2⟩
        · rintro ⟨hmem, hns⟩
          rcases hmem with rfl | hx
          · exact Or.inl rfl
          · by_cases hxa : x = a
            · exact Or.inl hxa
            · exact Or.inr ⟨hx, by rw [not_or]; exact ⟨hxa, hns⟩⟩

theorem removeDupAux_nodup : ∀ (l seen : List String), (removeDupAux seen l).Nodup := by
  intro l
  induction l with
  | nil => intro seen; simp [removeDupAux]
  | cons a as ih =>
      intro seen
      rw [removeDupAux]
      split
      · exact ih seen
      · rw [List.nodup_cons]
        refine ⟨?_, ih (a :: seen)⟩
        intro hmem
        rw [mem_removeDupAux] at hmem
        exact hmem.2 (List.mem_cons_self a seen)

theorem removeDupAux_sublist : ∀ (l seen : List String),
    List.Sublist (removeDupAux seen l) l := by
  intro l
  induction l with
  | nil => intro seen; simp [removeDupAux]
  | cons a as ih =>
      intro seen
      rw [removeDupAux]
      split
      · exact (ih seen).cons a
      · exact (ih (a :: seen)).cons₂ a

theorem removeDupAux_eq_self : ∀ (l seen : List String), l.Nodup →
    (∀ x ∈ l, x ∉ seen) → removeDupAux seen l = l := by
  intro l
  induction l with
  | nil => intro seen _ _; rfl
  | cons a as ih =>
      intro seen hnd hdis
      rw [removeDupAux]
      rw [List.nodup_cons] at hnd
      rw [if_neg (hdis a (List.mem_cons_self a as))]
      congr 1
      refine ih (a :: seen) hnd.2 ?_
      intro x hx
      rw [List.mem_cons, not_or]
      exact ⟨fun hxa => hnd.1 (hxa ▸ hx), hdis x (List.mem_cons_of_mem a hx)⟩

theorem removeDupAux_dedupSpec : ∀ (l seen : List String),
    removeDupAux seen l = dedupSpec (l.filter fun x => decide (x ∉ seen)) := by
  intro l
  induction l with
  | nil => intro seen; simp [removeDupAux, dedupSpec]
  | cons a as ih =>
      intro seen
      rw [removeDupAux, List.filter_cons]
      split
      · rename_i ha
        rw [if_neg (by simpa using ha)]
        exact ih seen
      · rename_i ha
        rw [if_pos (by simpa using ha)]
        rw [dedupSpec, ih (a :: seen), List.filter_filter]
        congr 2
        refine List.filter_congr ?_
        intro x _
        by_cases hxa : x = a <;> by_cases hxs : x ∈ seen <;>
          simp [hxa, hxs, List.mem_cons]

end AdFilter

namespace AdFilter

/-! ## Sorting lemmas -/

theorem sort_rules_perm (lines : List String) : List.Perm (sort_rules lines) lines :=
  List.mergeSort_perm lines ruleLE

theorem sort_rules_pairwise (lines : List String) :
    (sort_rules lines).Pairwise fun a b => ruleLE a b = true :=
  List.sorted_mergeSort ruleLE_trans ruleLE_total lines

theorem sort_rules_of_sorted {lines : List String}
    (h : lines.Pairwise fun a b => ruleLE a b = true) : sort_rules lines = lines :=
  List.mergeSort_of_sorted h

/-! ## Total-access lemmas -/

theorem getLast?_eq_getLastD {α : Type} (l : List α) (d : α) (h : l ≠ []) :
    l.getLast? = some (l.getLastD d) := by
  rw [List.getLastD_eq_getLast?]
  cases hl : l.getLast? with
  | none => exact absurd (List.getLast?_eq_none_iff.mp hl) h
  | some x => rfl

theorem head?_eq_headD {α : Type} (l : List α) (d : α) (h : l ≠ []) :
    l.head? = some (l.headD d) := by
  cases l with
  | nil => exact absurd rfl h
  | cons a as => rfl

theorem getElem?_eq_getD {α : Type} (l : List α) (i : Nat) (d : α) (h : i < l.length) :
    l[i]? = some (l.getD i d) := by
  rw [List.getElem?_eq_getElem h, List.getD_eq_getElem l d h]

/-! ## Header lemmas -/

theorem isComment_of_head {s : String} (h : s.data.head? = some '!') :
    isComment s = true := by
  unfold isComment
  split
  · rename_i heq
    rw [heq] at h
    simp at h
  · rename_i c cs heq
    rw [heq] at h
    simp only [List.head?_cons, Option.some.injEq] at h
    rw [h]
    rfl

theorem isComment_add_header (fn : String) (n : Nat) (tv tn : DateTime) :
    ∀ s ∈ add_header fn n tv tn, isComment s = true := by
  intro s hs
  simp only [add_header, List.mem_cons, List.not_mem_nil, or_false] at hs
  rcases hs with rfl | rfl | rfl | rfl | rfl | rfl | rfl
  · rfl
  · rfl
  · exact isComment_of_head rfl
  · exact isComment_of_head rfl
  · exact isComment_of_head rfl
  · exact isComment_of_head rfl
  · rfl

/-! ## Pipeline invariants -/

theorem mem_pipeline {lines : List String} {r : String} (h : r ∈ pipeline lines) :
    isComment r = false ∧ endsWithCountry COUNTRY_SUFFIXES r = false ∧
      isAdblockRule r = true := by
  have h1 : r ∈ remove_duplicates (filter_rules lines) := List.mem_mergeSort.mp h
  have h2 : r ∈ filter_rules lines := ((mem_removeDupAux _ _ _).mp h1).1
  exact (mem_filterRulesWith h2).2

theorem pipeline_nodup (lines : List String) : (pipeline lines).Nodup :=
  ((List.mergeSort_perm _ ruleLE).nodup_iff).mpr (removeDupAux_nodup _ [])

theorem filter_rules_pipeline (lines : List String) :
    filter_rules (pipeline lines) = pipeline lines := by
  rw [filter_rules, filterRulesWith]
  rw [List.filter_eq_self]
  intro r hr
  obtain ⟨h1, h2, h3⟩ := mem_pipeline hr
  simp [h1, h2, h3]

theorem filter_rules_header_append (fn : String) (n : Nat) (tv tn : DateTime)
    (l : List String) :
    filter_rules (add_header fn n tv tn ++ l) = filter_rules l := by
  rw [filter_rules, filterRulesWith, List.filter_append]
  have h : (add_header fn n tv tn).filter
      (fun line => !isComment line && !endsWithCountry COUNTRY_SUFFIXES line &&
        isAdblockRule line) = [] := by
    rw [List.filter_eq_nil_iff]
    intro s hs
    simp [isComment_add_header fn n tv tn s hs]
  rw [h, List.nil_append]
  rfl

theorem remove_duplicates_pipeline (lines : List String) :
    remove_duplicates (pipeline lines) = pipeline lines :=
  removeDupAux_eq_self _ [] (pipeline_nodup lines) (by intro x _; exact List.not_mem_nil x)

theorem sort_rules_pipeline (lines : List String) :
    sort_rules (pipeline lines) = pipeline lines :=
  sort_rules_of_sorted (sort_rules_pairwise (remove_duplicates (filter_rules lines)))

end AdFilter

namespace AdFilter

/-! ## Claims -/

/-- C1: for every input line sequence, every line of the pipeline result
(filter, then dedup, then sort; header excluded) matches
the pattern of a bare domain-block rule — two pipes, a nonempty caret-free
body, one trailing caret — and no two lines of the result are identical. -/
theorem C1_output_rules_wellformed_and_nodup (lines : List String) :
    (∀ r ∈ pipeline lines, ∃ body : List Char,
        r.data = '|' :: '|' :: (body ++ ['^']) ∧ body ≠ [] ∧ ∀ c ∈ body, c ≠ '^') ∧
      (pipeline lines).Nodup := by
  refine ⟨?_, pipeline_nodup lines⟩
  intro r hr
  exact (isAdblockRule_iff r).mp (mem_pipeline hr).2.2

/-- Witness for C1 at the concrete input `["||a.com^"]`. -/
theorem C1_witness :
    (∃ body : List Char, ("||a.com^" : String).data = '|' :: '|' :: (body ++ ['^']) ∧
        body ≠ [] ∧ ∀ c ∈ body, c ≠ '^') ∧
      (pipeline ["||a.com^"]).Nodup := by
  have h := C1_output_rules_wellformed_and_nodup ["||a.com^"]
  refine ⟨h.1 "||a.com^" ?_, h.2⟩
  have hp : pipeline ["||a.com^"] = ["||a.com^"] := by
    have h1 : remove_duplicates (filter_rules ["||a.com^"]) = ["||a.com^"] := by decide
    show sort_rules (remove_duplicates (filter_rules ["||a.com^"])) = ["||a.com^"]
    rw [h1]
    exact List.mergeSort_singleton "||a.com^"
  rw [hp]
  exact List.mem_singleton.mpr rfl

set_option maxRecDepth 20000 in
/-- C2: no rule surviving `filter_rules` ends in a dot, a blocklisted
country code and the trailing caret; and for EVERY code `cc` of the
blocklist, the rule whose domain is exactly that bare country code with
no preceding dot (`||cc^`, e.g. `||jp^`) is not excluded and is kept. -/
theorem C2_country_suffix_dropped_bare_code_kept :
    (∀ (lines : List String) (r : String), r ∈ filter_rules lines →
        ∀ cc ∈ COUNTRY_SUFFIXES,
          ¬∃ p : List Char, r.data = p ++ ('.' :: (cc.data ++ ['^']))) ∧
      ∀ (lines : List String) (cc : String), cc ∈ COUNTRY_SUFFIXES →
        ("||" ++ cc ++ "^") ∈ lines → ("||" ++ cc ++ "^") ∈ filter_rules lines := by
  constructor
  · intro lines r hr cc hcc hex
    have h2 : endsWithCountry COUNTRY_SUFFIXES r = false := (mem_filterRulesWith hr).2.2.1
    have h3 : trailsWith ('.' :: (cc.data ++ ['^'])) r.data = true :=
      (trailsWith_iff _ _).mpr hex
    have h4 : (COUNTRY_SUFFIXES.any fun c => trailsWith ('.' :: (c.data ++ ['^'])) r.data)
        = true := List.any_eq_true.mpr ⟨cc, hcc, h3⟩
    have h5 : (COUNTRY_SUFFIXES.any fun c => trailsWith ('.' :: (c.data ++ ['^'])) r.data)
        = false := h2
    rw [h4] at h5
    exact Bool.true_eq_false.mp h5
  · intro lines cc hcc hmem
    refine List.mem_filter.mpr ⟨hmem, ?_⟩
    have hall : (COUNTRY_SUFFIXES.all fun c =>
        !isComment ("||" ++ c ++ "^") &&
          !endsWithCountry COUNTRY_SUFFIXES ("||" ++ c ++ "^") &&
          isAdblockRule ("||" ++ c ++ "^")) = true := by decide
    exact List.all_eq_true.mp hall cc hcc


/-- Witness for C2: a kept rule does not end in `.jp^`, and the bare-code
rule built from the code `"de"` survives filtering. -/
theorem C2_witness :
    (¬∃ p : List Char, ("||tracker.example.com^" : String).data =
        p ++ ('.' :: (("jp" : String).data ++ ['^']))) ∧
      ("||" ++ "de" ++ "^") ∈ filter_rules ["||" ++ "de" ++ "^"] := by
  constructor
  · refine C2_country_suffix_dropped_bare_code_kept.1 ["||tracker.example.com^"]
      "||tracker.example.com^" ?_ "jp" (by decide)
    exact List.mem_filter.mpr ⟨List.mem_singleton.mpr rfl, by decide⟩
  · exact C2_country_suffix_dropped_bare_code_kept.2 ["||" ++ "de" ++ "^"] "de" (by decide)
      (List.mem_singleton.mpr rfl)

/-- C4: the transformation is idempotent: running filter, dedup and sort
on the output of a previous run — header lines included, which are
filtered out again as comments — returns exactly the previous rule
lines. -/
theorem C4_pipeline_idempotent (lines : List String) (fn : String) (n : Nat)
    (tv tn : DateTime) :
    pipeline (add_header fn n tv tn ++ pipeline lines) = pipeline lines := by
  show sort_rules (remove_duplicates (filter_rules (add_header fn n tv tn ++
    pipeline lines))) = pipeline lines
  rw [filter_rules_header_append, filter_rules_pipeline, remove_duplicates_pipeline,
    sort_rules_pipeline]

/-- C5: `remove_duplicates` returns the subsequence keeping the first
occurrence of each string in its original position and dropping all later
occurrences (`dedupSpec` is that specification); in particular the result
is a duplicate-free subsequence with the same members. -/
theorem C5_remove_duplicates_keeps_first (l : List String) :
    remove_duplicates l = dedupSpec l ∧
      List.Sublist (remove_duplicates l) l ∧
      (remove_duplicates l).Nodup ∧
      ∀ x, x ∈ remove_duplicates l ↔ x ∈ l := by
  refine ⟨?_, removeDupAux_sublist l [], removeDupAux_nodup l [], ?_⟩
  · show removeDupAux [] l = dedupSpec l
    rw [removeDupAux_dedupSpec]
    congr 1
    refine List.filter_eq_self.mpr ?_
    intro a _
    simp
  · intro x
    rw [show remove_duplicates l = removeDupAux [] l from rfl, mem_removeDupAux]
    simp

/-- C6: the pipeline on the concrete six-line example: comment, `.jp`
rule, malformed rule and duplicate are dropped, and the two remaining
rules stay in order because their second-level domains are ascending. -/
theorem C6_concrete_example :
    pipeline ["! comment", "||ads.example.jp^", "||tracker.example.com^",
        "||tracker.example.com^", "||bad^rule", "||sub.shop.com^"] =
      ["||tracker.example.com^", "||sub.shop.com^"] := by
  have h1 : remove_duplicates (filter_rules ["! comment", "||ads.example.jp^",
      "||tracker.example.com^", "||tracker.example.com^", "||bad^rule",
      "||sub.shop.com^"]) = ["||tracker.example.com^", "||sub.shop.com^"] := by decide
  show sort_rules (remove_duplicates (filter_rules _)) = _
  rw [h1]
  exact sort_rules_of_sorted (by decide)


/-- C3 as stated is false: with the domain read as "the substring after
the last occurrence of `||` and before the following caret", the rule
`"||a|||^"` (where occurrences of `||` overlap) has spec-domain `""`,
but Python\'s non-overlapping `split` gives domain `"|"`; `sort_rules`
therefore places `"||0^"` (spec key `("0","0")`) before `"||a|||^"`
(spec key `("","")`) although its spec key is strictly larger, so the
output is not ascending in the claimed key. -/
theorem C3_counterexample :
    sort_rules ["||a|||^", "||0^"] = ["||0^", "||a|||^"] ∧
      sortingKeySpec "||0^" = some (['0'], ['0']) ∧
      sortingKeySpec "||a|||^" = some ([], []) ∧
      keyLE (['0'], ['0']) ([], []) = false ∧
      ¬ ((sort_rules ["||a|||^", "||0^"]).Pairwise fun a b =>
          ∀ ka kb, sortingKeySpec a = some ka → sortingKeySpec b = some kb →
            keyLE ka kb = true) := by
  have hle : ruleLE "||a|||^" "||0^" = false := by decide
  have hsort : sort_rules ["||a|||^", "||0^"] = ["||0^", "||a|||^"] := by
    show List.mergeSort ["||a|||^", "||0^"] ruleLE = ["||0^", "||a|||^"]
    rw [mergeSort_pair, hle]
    simp
  refine ⟨hsort, by decide, by decide, by decide, ?_⟩
  intro hpw
  rw [hsort] at hpw
  have h1 := (List.pairwise_cons.mp hpw).1 "||a|||^" (List.mem_singleton.mpr rfl)
  have h2 := h1 (['0'], ['0']) ([], []) (by decide) (by decide)
  rw [(by decide : keyLE (['0'], ['0']) ([], []) = false)] at h2
  exact Bool.false_ne_true h2

/-- C3 (amended): `sort_rules` sorts stably and ascending by the key pair
`sorting_key` — where the domain is the LAST PIECE OF THE NON-OVERLAPPING
LEFT-TO-RIGHT SPLIT on `||` (Python `split`), cut before the first
following caret — rather than by the substring after the last occurrence
of `||`: the output is a permutation of the input, pairwise ascending in
the key (so rules sharing the first component are in ascending
full-domain order), and input order is preserved for equal keys. -/
theorem C3_sorted_stable_by_split_key (l : List String) :
    List.Perm (sort_rules l) l ∧
      ((sort_rules l).Pairwise fun a b =>
        keyLE (sorting_key a) (sorting_key b) = true) ∧
      ∀ a b : String, sorting_key a = sorting_key b →
        List.Sublist [a, b] l → List.Sublist [a, b] (sort_rules l) := by
  refine ⟨sort_rules_perm l, sort_rules_pairwise l, ?_⟩
  intro a b hk hsub
  refine List.sublist_mergeSort ruleLE_trans ruleLE_total ?_ hsub
  refine List.pairwise_cons.mpr ⟨?_, List.pairwise_singleton _ _⟩
  intro c hc
  rw [List.mem_singleton] at hc
  subst hc
  show ruleLE a c = true
  rw [ruleLE, hk]
  exact keyLE_refl _

/-- Witness for C3 (amended): the rules `"x.a^"` and `"||x.a^"` have
equal sorting keys, and their relative order survives sorting. -/
theorem C3_witness :
    sorting_key "x.a^" = sorting_key "||x.a^" ∧
      List.Sublist ["x.a^", "||x.a^"] (sort_rules ["x.a^", "||x.a^"]) := by
  refine ⟨by decide, ?_⟩
  exact (C3_sorted_stable_by_split_key ["x.a^", "||x.a^"]).2.2 "x.a^" "||x.a^"
    (by decide) (List.Sublist.refl _)


/-- C7: `add_header` returns exactly 7 lines, each beginning with `!`:
title, description, a source-file line embedding the path, a version line
with the 14-character `YYYYMMDDHHMMSS` timestamp, a last-modified line
with the 19-character `YYYY-MM-DD HH:MM:SS` timestamp, the total-rule
count, and a bare `!`; with zero remaining rules `main` writes the header
with `Total Rules: 0` followed by no rule lines. -/
theorem C7_add_header_format (fn : String) (n : Nat) (tv tn : DateTime) :
    (add_header fn n tv tn).length = 7 ∧
      (∀ s ∈ add_header fn n tv tn, s.data.head? = some '!') ∧
      (add_header fn n tv tn).getD 2 "" = "! Source file: " ++ fn ∧
      (add_header fn n tv tn).getD 3 "" = "! Version: " ++ fmtCompact tv ∧
      (fmtCompact tv).length = 14 ∧
      (add_header fn n tv tn).getD 4 "" = "! Last Modified: " ++ fmtHuman tn ∧
      (fmtHuman tn).length = 19 ∧
      (add_header fn n tv tn).getD 5 "" = "! Total Rules: " ++ Nat.repr n ∧
      (add_header fn n tv tn).getD 6 "" = "!" ∧
      (add_header fn 0 tv tn).getD 5 "" = "! Total Rules: 0" ∧
      ∀ lines : List String, pipeline lines = [] →
        runMain ["sort.py", fn] lines tv tn =
          MainResult.ok ("文件 " ++ fn ++ " 已成功优化，共处理 " ++ Nat.repr 0 ++
              " 条规则。")
            (add_header fn 0 tv tn) := by
  refine ⟨rfl, ?_, rfl, rfl, ?_, rfl, ?_, rfl, rfl, rfl, ?_⟩
  · intro s hs
    simp only [add_header, List.mem_cons, List.not_mem_nil, or_false] at hs
    rcases hs with rfl | rfl | rfl | rfl | rfl | rfl | rfl <;> rfl
  · simp [fmtCompact, pad4, pad2, String.length_append]
  · simp [fmtHuman, pad4, pad2, String.length_append]
    decide
  · intro lines h
    show MainResult.ok ("文件 " ++ fn ++ " 已成功优化，共处理 " ++
        Nat.repr (pipeline lines).length ++ " 条规则。")
      (add_header fn (pipeline lines).length tv tn ++ pipeline lines) = _
    rw [h]
    simp

/-- Witness for C7 at a concrete path, count and times, with the empty
input for the zero-rules conjunct. -/
theorem C7_witness :
    (add_header "list.txt" 0 ⟨2026, 10, 12, 3, 4, 5⟩ ⟨2026, 10, 12, 3, 4, 6⟩).getD 5 ""
        = "! Total Rules: 0" ∧
      runMain ["sort.py", "list.txt"] [] ⟨2026, 10, 12, 3, 4, 5⟩ ⟨2026, 10, 12, 3, 4, 6⟩ =
        MainResult.ok ("文件 " ++ "list.txt" ++ " 已成功优化，共处理 " ++ Nat.repr 0 ++
            " 条规则。")
          (add_header "list.txt" 0 ⟨2026, 10, 12, 3, 4, 5⟩ ⟨2026, 10, 12, 3, 4, 6⟩) := by
  have hnil : pipeline ([] : List String) = [] := by
    show List.mergeSort (remove_duplicates (filter_rules [])) ruleLE = []
    rw [show remove_duplicates (filter_rules []) = [] from rfl]
    exact List.mergeSort_nil
  have h := C7_add_header_format "list.txt" 0 ⟨2026, 10, 12, 3, 4, 5⟩ ⟨2026, 10, 12, 3, 4, 6⟩
  exact ⟨h.2.2.2.2.2.2.2.2.2.1, h.2.2.2.2.2.2.2.2.2.2 [] hnil⟩


/-- C8: invoked with an argument count other than one file path (i.e.
`sys.argv` not of length 2), `main` prints the usage message and exits
with status 1 — a non-zero status — without reading or writing any file:
the outcome is the same whatever the file contains. -/
theorem C8_usage_error (argv : List String) (h : argv.length ≠ 2) :
    (∀ (fileLines : List String) (tv tn : DateTime),
        runMain argv fileLines tv tn = MainResult.usage usageMsg 1) ∧
      (1 : Nat) ≠ 0 := by
  refine ⟨?_, one_ne_zero⟩
  intro fileLines tv tn
  match argv, h with
  | [], _ => rfl
  | [_], _ => rfl
  | [_, _], h => exact absurd rfl h
  | _ :: _ :: _ :: _, _ => rfl

/-- Witness for C8 with a zero-argument invocation. -/
theorem C8_witness :
    (["sort.py"] : List String).length ≠ 2 ∧
      runMain ["sort.py"] ["||a.com^"] ⟨2026, 1, 2, 3, 4, 5⟩ ⟨2026, 1, 2, 3, 4, 5⟩ =
        MainResult.usage usageMsg 1 := by
  refine ⟨by decide, ?_⟩
  exact (C8_usage_error ["sort.py"] (by decide)).1 ["||a.com^"] ⟨2026, 1, 2, 3, 4, 5⟩
    ⟨2026, 1, 2, 3, 4, 5⟩

theorem endsWithCountry_perm {S T : List String} (h : List.Perm S T) (line : String) :
    endsWithCountry S line = endsWithCountry T line := by
  rw [Bool.eq_iff_iff]
  show (S.any fun cc => trailsWith ('.' :: (cc.data ++ ['^'])) line.data) = true ↔
    (T.any fun cc => trailsWith ('.' :: (cc.data ++ ['^'])) line.data) = true
  rw [List.any_eq_true, List.any_eq_true]
  constructor
  · rintro ⟨cc, h1, h2⟩
    exact ⟨cc, h.mem_iff.mp h1, h2⟩
  · rintro ⟨cc, h1, h2⟩
    exact ⟨cc, h.mem_iff.mpr h1, h2⟩

/-- C9: `filter_rules` does not depend on the iteration order of the
`COUNTRY_SUFFIXES` set used to build the alternation regex: any
permutation of the suffix list filters identically, so two runs on the
same input produce identical output. -/
theorem C9_filter_independent_of_suffix_order (suffixes : List String)
    (h : List.Perm suffixes COUNTRY_SUFFIXES) (lines : List String) :
    filterRulesWith suffixes lines = filter_rules lines := by
  show List.filter _ lines = List.filter _ lines
  refine List.filter_congr ?_
  intro line _
  rw [endsWithCountry_perm h line]

/-- Witness for C9: swapping the first two suffix codes changes nothing
on a concrete input. -/
theorem C9_witness :
    List.Perm ("kr" :: "jp" :: COUNTRY_SUFFIXES.drop 2) COUNTRY_SUFFIXES ∧
      filterRulesWith ("kr" :: "jp" :: COUNTRY_SUFFIXES.drop 2)
          ["||x.jp^", "||a.com^"] =
        filter_rules ["||x.jp^", "||a.com^"] := by
  have hperm : List.Perm ("kr" :: "jp" :: COUNTRY_SUFFIXES.drop 2) COUNTRY_SUFFIXES := by
    decide
  exact ⟨hperm,
    C9_filter_independent_of_suffix_order ("kr" :: "jp" :: COUNTRY_SUFFIXES.drop 2) hperm
      ["||x.jp^", "||a.com^"]⟩

/-- C10: `extract_domain` and `sorting_key` are total on every string:
every Python indexing step (`[-1]` and `[0]` in `extract_domain`, the
guarded `[-2]` and `[0]` in `sorting_key`) succeeds, because `split`
always returns a nonempty list; hence `sort_rules` never raises an
indexing error on any input. -/
theorem C10_sorting_key_total (rule : String) :
    extractDomainOpt rule = some (extract_domain rule) ∧
      sortingKeyOpt rule = some (sorting_key rule) := by
  have h1 : pySplitCh ['|', '|'] rule.data ≠ [] := pySplitCh_ne_nil _ _
  have h2 : pySplitCh ['^'] ((pySplitCh ['|', '|'] rule.data).getLastD []) ≠ [] :=
    pySplitCh_ne_nil _ _
  have hd : extractDomainOpt rule = some (extract_domain rule) := by
    show ((pySplitCh ['|', '|'] rule.data).getLast?).bind
        (fun d => (pySplitCh ['^'] d).head?) = some (extract_domain rule)
    rw [getLast?_eq_getLastD _ [] h1, Option.some_bind, head?_eq_headD _ [] h2]
    rfl
  refine ⟨hd, ?_⟩
  show (extractDomainOpt rule).bind _ = some (sorting_key rule)
  rw [hd, Option.some_bind]
  show Option.map (fun second_level_domain => (second_level_domain, extract_domain rule))
      (if (pySplitCh ['.'] (extract_domain rule)).length > 1 then
        (pySplitCh ['.'] (extract_domain rule))[(pySplitCh ['.']
          (extract_domain rule)).length - 2]?
      else (pySplitCh ['.'] (extract_domain rule)).head?) = some (sorting_key rule)
  by_cases hp : (pySplitCh ['.'] (extract_domain rule)).length > 1
  · rw [if_pos hp, getElem?_eq_getD _ _ [] (by omega)]
    show some ((pySplitCh ['.'] (extract_domain rule)).getD
        ((pySplitCh ['.'] (extract_domain rule)).length - 2) [], extract_domain rule) =
      some (sorting_key rule)
    rw [show sorting_key rule = ((pySplitCh ['.'] (extract_domain rule)).getD
        ((pySplitCh ['.'] (extract_domain rule)).length - 2) [], extract_domain rule) by
      show (if (pySplitCh ['.'] (extract_domain rule)).length > 1 then _ else _,
        extract_domain rule) = _
      rw [if_pos hp]]
  · rw [if_neg hp, head?_eq_headD _ [] (pySplitCh_ne_nil _ _)]
    show some ((pySplitCh ['.'] (extract_domain rule)).headD [], extract_domain rule) =
      some (sorting_key rule)
    rw [show sorting_key rule = ((pySplitCh ['.'] (extract_domain rule)).headD [],
        extract_domain rule) by
      show (if (pySplitCh ['.'] (extract_domain rule)).length > 1 then _ else _,
        extract_domain rule) = _
      rw [if_neg hp]]

end AdFilter
